import Mathlib

/-!
Verification of the funee repository against its specification.

The development shallowly embeds the TypeScript sources under src/
(base64 encode and decode, cryptoRandomString, memoizeInFS) and, for the
bundler core written in Rust that is not part of src/, models the
components described by the specification (macro engine, fetcher and
HTTP cache, watch driver, runtime backstop).  JavaScript strings are
embedded as lists of characters and Uint8Array values as lists of
natural numbers below 256.
-/

set_option autoImplicit false

namespace Funee

/-! ## Base64 (src/funee-lib/filesystem readFileBinary.ts)

Shallow embedding of base64Encode and base64Decode.  Bytes are lists of
naturals; the JavaScript bitwise operators map to Nat shifts and masks
(all intermediate values stay below 256, so Uint8Array stores never
truncate).
-/

/-- The constant BASE64_CHARS from the source. -/
def BASE64_CHARS : List Char :=
  "ABCDEFGHIJKLMNOPQRSTUVWXYZabcdefghijklmnopqrstuvwxyz0123456789+/".data

/-- Indexing BASE64_CHARS, as result += BASE64_CHARS[idx] in the source.
All indices produced by the encoder are below 64, so the default is
never used. -/
def b64char (n : Nat) : Char := BASE64_CHARS.getD n '?'

/-- base64Encode: the loop walks the bytes three at a time; when fewer
than three bytes remain the missing bytes read as 0 and the
corresponding output positions hold padding. -/
def base64Encode : List Nat → List Char
  | [] => []
  | [b1] =>
    [b64char (b1 >>> 2),
     b64char ((b1 &&& 3) <<< 4),
     '=', '=']
  | [b1, b2] =>
    [b64char (b1 >>> 2),
     b64char (((b1 &&& 3) <<< 4) ||| (b2 >>> 4)),
     b64char ((b2 &&& 15) <<< 2),
     '=']
  | b1 :: b2 :: b3 :: rest =>
    [b64char (b1 >>> 2),
     b64char (((b1 &&& 3) <<< 4) ||| (b2 >>> 4)),
     b64char (((b2 &&& 15) <<< 2) ||| (b3 >>> 6)),
     b64char (b3 &&& 63)] ++ base64Encode rest

/-- The lookup table of base64Decode: a 256-entry zero-initialised
Uint8Array with lookup[BASE64_CHARS.charCodeAt(i)] = i.  A character
that is not in BASE64_CHARS (such as the padding sign) reads 0. -/
def b64lookup (c : Char) : Nat :=
  if c ∈ BASE64_CHARS then BASE64_CHARS.indexOf c else 0

/-- base64.charCodeAt(i) fed through the lookup table; reading past the
end of the string gives NaN, which indexes as undefined and coerces to
0 in the bitwise operations. -/
def b64charAt (s : List Char) (i : Nat) : Nat :=
  match s.get? i with
  | some c => b64lookup c
  | none => 0

/-- The decoding loop of base64Decode.  i advances by four per
iteration; after the four reads the source guards the second output
byte by i - 1 < len and the third by i < len, with i already advanced,
that is by i0 + 3 < len and i0 + 4 < len for a chunk starting at i0.
The fuel argument only bounds the number of iterations; the caller
passes len, which exceeds the number of chunks, so the loop always
stops because i has reached len. -/
def base64DecodeLoop (s : List Char) (len : Nat) : Nat → Nat → List Nat
  | 0, _ => []
  | fuel + 1, i =>
    if i < len then
      let c1 := b64charAt s i
      let c2 := b64charAt s (i + 1)
      let c3 := b64charAt s (i + 2)
      let c4 := b64charAt s (i + 3)
      [(c1 <<< 2) ||| (c2 >>> 4)] ++
        (if i + 3 < len then [((c2 &&& 15) <<< 4) ||| (c3 >>> 2)] else []) ++
        (if i + 4 < len then [((c3 &&& 3) <<< 6) ||| c4] else []) ++
        base64DecodeLoop s len fuel (i + 4)
    else []

/-- base64Decode: strip up to two padding signs from the effective
length, run the loop, and return bytes.slice(0, p).  The backing
Uint8Array has length (len * 3) / 4 (fractional lengths truncate) and
out-of-range stores are dropped, so the slice is the written prefix
truncated to the allocation. -/
def base64Decode (s : List Char) : List Nat :=
  let len0 := s.length
  let len1 := if s.get? (len0 - 1) = some '=' then len0 - 1 else len0
  let len := if s.get? (len1 - 1) = some '=' then len1 - 1 else len1
  (base64DecodeLoop s len len 0).take ((len * 3) / 4)

/-! ## cryptoRandomString (src/unnamed/part_008)

cryptoRandomString(desiredLength) requests ceil(desiredLength / 2)
random bytes, renders each as two lowercase hexadecimal characters via
toString(16).padStart(2, "0"), joins, and slices to the desired
length.  The host randomBytes function is a parameter of the
embedding. -/

/-- b.toString(16): lowercase hexadecimal rendering of a natural. -/
def jsToHex (b : Nat) : List Char := Nat.toDigits 16 b

/-- padStart(2, "0"). -/
def padStart2 (l : List Char) : List Char :=
  List.replicate (2 - l.length) '0' ++ l

/-- One byte of the hex string: b.toString(16).padStart(2, "0"). -/
def byteToHex (b : Nat) : List Char := padStart2 (jsToHex b)

/-- Math.ceil(desiredLength / 2) on naturals. -/
def ceilHalf (n : Nat) : Nat := (n + 1) / 2

/-- cryptoRandomString with the host randomBytes passed explicitly. -/
def cryptoRandomString (randomBytes : Nat → List Nat) (desiredLength : Nat) :
    List Char :=
  let bytes := randomBytes (ceilHalf desiredLength)
  ((bytes.map byteToHex).flatten).take desiredLength

/-- The sixteen characters a hex rendering may use. -/
def hexChars : List Char := "0123456789abcdef".data

/-! ## memoizeInFS (src/funee-lib/memoize/memoizeInFS.ts)

The cache path of a call is "./cache/" ++ identifier ++ "_" ++
args.map(String).join("_").replace slashes by underscores.  The
embedding works on the String() renderings of the arguments. -/

/-- join("_") on the rendered arguments. -/
def joinUnderscore : List (List Char) → List Char
  | [] => []
  | [x] => x
  | x :: y :: rest => x ++ '_' :: joinUnderscore (y :: rest)

/-- replace(/\x2f/g, "_"): every slash becomes an underscore. -/
def replaceSlashes (s : List Char) : List Char :=
  s.map (fun c => if c = '/' then '_' else c)

/-- The hash part of the cache path: identifier + "_" + joined
renderings with slashes replaced. -/
def memoHash (identifier : List Char) (renders : List (List Char)) : List Char :=
  identifier ++ '_' :: replaceSlashes (joinUnderscore renders)

/-- The full cache file path "./cache/" ++ hash. -/
def memoCachePath (identifier : List Char) (renders : List (List Char)) :
    List Char :=
  "./cache/".data ++ memoHash identifier renders

/-! ## Macro engine and emission pipeline

Modelled from the spec: the bundler core (parser, resolver, graph
builder, macro engine, tree shaker, emitter) is implemented in Rust and
is not part of src/; the model below follows sections 3 to 4.7 of the
specification.  Declarations are the atoms; expressions are calls over
canonical names with opaque atoms; a declaration is macro-marked when
its initializer is syntactically a call of createMacro. -/

/-- Canonical name: the pair of defining uri and original name. -/
structure CanonicalName where
  uri : String
  name : String
deriving DecidableEq, Repr

/-- Modelled from the spec: expressions of the declaration bodies, at
the granularity the macro engine inspects: call expressions over
canonical names (resolution has already mapped identifiers to canonical
names) and opaque atoms for everything else. -/
inductive Expr where
  | atom (s : String)
  | call (callee : CanonicalName) (args : List Expr)

/-- The canonical name of the standard-library createMacro symbol. -/
def createMacroCN : CanonicalName := ⟨"funee", "createMacro"⟩

/-- Modelled from the spec: a declaration of the graph, identified by
its canonical name and carrying the AST fragment that will be
emitted. -/
structure Decl where
  name : CanonicalName
  body : Expr

/-- Modelled from the spec: the module store after resolution, as the
list of declarations with the entry default export. -/
structure Program where
  decls : List Decl
  entry : CanonicalName

/-- macro_marker: whether the declaration initializer is syntactically
a call createMacro(...). -/
def isMacroDecl (d : Decl) : Bool :=
  match d.body with
  | .call c _ => c = createMacroCN
  | _ => false

/-- The canonical names of all macro-marked declarations. -/
def macroNames (p : Program) : List CanonicalName :=
  (p.decls.filter isMacroDecl).map (·.name)

mutual

/-- Whether an expression contains a call whose callee is the given
canonical name. -/
def containsCall (t : CanonicalName) : Expr → Bool
  | .atom _ => false
  | .call c args => decide (c = t) || containsCallList t args

/-- List version of containsCall. -/
def containsCallList (t : CanonicalName) : List Expr → Bool
  | [] => false
  | e :: es => containsCall t e || containsCallList t es

end

mutual

/-- Modelled from the spec: one scan of the expansion loop over an
expression.  An outermost call to a macro-marked name is replaced by
the sandboxed evaluation of the macro body on the captured arguments
(the arguments are captured verbatim, so the scan does not descend into
them); other calls keep their callee and are scanned inside. -/
def expandExpr (isM : CanonicalName → Bool)
    (mf : CanonicalName → List Expr → Expr) : Expr → Expr
  | .atom s => .atom s
  | .call c args =>
    if isM c then mf c args else .call c (expandExprList isM mf args)

/-- List version of expandExpr. -/
def expandExprList (isM : CanonicalName → Bool)
    (mf : CanonicalName → List Expr → Expr) : List Expr → List Expr
  | [] => []
  | e :: es => expandExpr isM mf e :: expandExprList isM mf es

end

/-- Modelled from the spec: one iteration of the expansion loop on a
declaration.  Call-site detection never descends into macro bodies, so
macro-marked declarations are left untouched. -/
def expandOnceDecl (isM : CanonicalName → Bool)
    (mf : CanonicalName → List Expr → Expr) (d : Decl) : Decl :=
  if isMacroDecl d then d else { d with body := expandExpr isM mf d.body }

/-- Modelled from the spec: one full pass of the expansion loop over
the graph. -/
def expandOnce (mf : CanonicalName → List Expr → Expr) (p : Program) :
    Program :=
  { p with
    decls := p.decls.map
      (expandOnceDecl (fun c => decide (c ∈ macroNames p)) mf) }

/-- Whether a full pass would still find a macro call: some
declaration whose surrounding scope is not itself a macro body
contains a call to a macro-marked name. -/
def hasAnyMacroCall (p : Program) : Bool :=
  p.decls.any fun d =>
    !isMacroDecl d && (macroNames p).any fun n => containsCall n d.body

/-- Modelled from the spec: bundle errors surfaced by the pipeline. -/
inductive BundleErr where
  | MacroRecursion
deriving DecidableEq, Repr

/-- The diagnostic line of a bundle error, as asserted by the CLI
tests. -/
def bundleErrMessage : BundleErr → String
  | .MacroRecursion => "Macro expansion exceeded max iterations"

/-- Modelled from the spec: the bounded expansion loop.  It terminates
when a full pass finds no macro call and fails with MacroRecursion when
the iteration cap is exceeded. -/
def expandLoop (mf : CanonicalName → List Expr → Expr) :
    Nat → Program → Except BundleErr Program
  | 0, p => if hasAnyMacroCall p then .error .MacroRecursion else .ok p
  | fuel + 1, p =>
    if hasAnyMacroCall p then expandLoop mf fuel (expandOnce mf p)
    else .ok p

/-- The default iteration cap of the expansion loop. -/
def maxIterations : Nat := 100

/-- The CLI outcome of a bundle attempt: exit code and diagnostic
lines. -/
structure CliOutcome where
  exitCode : Nat
  stderrLines : List String
deriving DecidableEq, Repr

/-- Modelled from the spec: the CLI front end maps a pipeline error to
exit status 1 and a human-readable diagnostic line. -/
def cliRun (r : Except BundleErr Program) : CliOutcome :=
  match r with
  | .ok _ => ⟨0, []⟩
  | .error e => ⟨1, [bundleErrMessage e]⟩

/-- The declaration of a program with the given canonical name. -/
def declNamed (p : Program) (c : CanonicalName) : Option Decl :=
  p.decls.find? fun d => d.name = c

mutual

/-- The callee names of all call expressions of an expression, the
reference edges of the declaration graph. -/
def callTargets : Expr → List CanonicalName
  | .atom _ => []
  | .call c args => c :: callTargetsList args

/-- List version of callTargets. -/
def callTargetsList : List Expr → List CanonicalName
  | [] => []
  | e :: es => callTargets e ++ callTargetsList es

end

/-- The reference targets of the declaration with the given name. -/
def targetsOf (p : Program) (c : CanonicalName) : List CanonicalName :=
  match declNamed p c with
  | some d => callTargets d.body
  | none => []

/-- One step of the reachability worklist: add every target of every
declaration already reached. -/
def stepReach (p : Program) (s : List CanonicalName) : List CanonicalName :=
  (s ++ (s.map (targetsOf p)).flatten).dedup

/-- Modelled from the spec: the reachable set from the entry default
export, computed with as many worklist rounds as there are
declarations. -/
def reachNames (p : Program) : List CanonicalName :=
  (stepReach p)^[p.decls.length] [p.entry]

/-- Modelled from the spec: tree shaking keeps exactly the reachable
declarations. -/
def treeShake (p : Program) : Program :=
  { p with decls := p.decls.filter fun d => d.name ∈ reachNames p }

/-- Modelled from the spec: the bundling pipeline after resolution:
macro expansion with the default cap followed by tree shaking; the
emitted bundle consists of the surviving declarations. -/
def bundle (mf : CanonicalName → List Expr → Expr) (p : Program) :
    Except BundleErr Program :=
  (expandLoop mf maxIterations p).map treeShake

/-! ## Runtime backstop for unexpanded createMacro

Modelled from the spec: the runtime body of createMacro lives in the
standard library file funee-lib/core.ts, which is not part of src/;
per the specification it must throw CreateMacroUnexpanded when invoked
at runtime, and the CLI test asserts the diagnostic contains the text
that createMacro was not expanded. -/

/-- Modelled from the spec: the runtime error thrown by the createMacro
backstop. -/
inductive RTErr where
  | CreateMacroUnexpanded
deriving DecidableEq, Repr

/-- The diagnostic message of a runtime error. -/
def rtErrMessage : RTErr → String
  | .CreateMacroUnexpanded => "createMacro was not expanded"

mutual

/-- Modelled from the spec: running an emitted expression.  Arguments
are evaluated first; invoking a call whose callee is the emitted
createMacro binding throws the backstop error; every other invocation
succeeds in this model. -/
def evalEmitted : Expr → Except RTErr Unit
  | .atom _ => .ok ()
  | .call c args =>
    match evalEmittedList args with
    | .error er => .error er
    | .ok _ =>
      if c = createMacroCN then .error .CreateMacroUnexpanded else .ok ()

/-- List version of evalEmitted. -/
def evalEmittedList : List Expr → Except RTErr Unit
  | [] => .ok ()
  | e :: es =>
    match evalEmitted e with
    | .error er => .error er
    | .ok _ => evalEmittedList es

end

/-- Modelled from the spec: running a bundle executes the entry default
export; a runtime error aborts with exit status 1 and its message on
the diagnostic stream. -/
def runEmitted (q : Program) : CliOutcome :=
  match declNamed q q.entry with
  | none => ⟨1, ["missing entry"]⟩
  | some d =>
    match evalEmitted d.body with
    | .ok _ => ⟨0, []⟩
    | .error e => ⟨1, [rtErrMessage e]⟩

/-! ## Fetcher and HTTP cache

Modelled from the spec: the fetcher of the bundler core (Rust, not part
of src/), section 4.1.  A server is a deterministic map from full URLs
(query string included) to responses; the on-disk cache is keyed by the
full URL; a cache hit returns the stored body without any network
round-trip; a 2xx response stores the body and emits a one-shot
Fetched line on the diagnostic stream; a 3xx response follows Location
with a bounded number of hops. -/

/-- Modelled from the spec: the HTTP responses the fetcher
distinguishes. -/
inductive HttpResp where
  | ok (body : String)
  | redirect (location : String)
  | err (status : Nat)

/-- Modelled from the spec: fetch errors. -/
inductive FetchErr where
  | RedirectLoop
  | HttpError (status : Nat)
deriving DecidableEq, Repr

/-- The diagnostic line of a fetch error. -/
def fetchErrMessage : FetchErr → String
  | .RedirectLoop => "redirect loop: too many redirects"
  | .HttpError s => "HTTP error " ++ toString s

/-- The fetcher state: on-disk cache (full URL to body), diagnostic
lines, and the URLs of the network requests issued. -/
structure FetchSt where
  cache : List (String × String)
  diags : List String
  net : List String
deriving DecidableEq, Repr

/-- Cache read, keyed by the full URL. -/
def cacheLookup (c : List (String × String)) (u : String) : Option String :=
  (c.find? fun e => e.1 = u).map (·.2)

/-- Cache write on a 2xx response. -/
def cacheInsert (c : List (String × String)) (u b : String) :
    List (String × String) :=
  (u, b) :: c

/-- Modelled from the spec: one attempt at a URL.  Unless reload is
set, a cache hit returns the stored body with no network request and no
diagnostic; otherwise a request is issued and the response dispatched:
2xx stores the body keyed by the full URL and emits the one-shot
Fetched line, 3xx hands Location to the continuation, 4xx and 5xx fall
back to a cached body when one exists and fail with HttpError
otherwise. -/
def fetchStep (server : String → HttpResp) (reload : Bool) (st : FetchSt)
    (url : String)
    (onRedirect : FetchSt → String → Except FetchErr String × FetchSt) :
    Except FetchErr String × FetchSt :=
  match (if reload then none else cacheLookup st.cache url) with
  | some body => (.ok body, st)
  | none =>
    let st1 : FetchSt := { st with net := st.net ++ [url] }
    match server url with
    | .ok body =>
      (.ok body,
       { st1 with
         cache := cacheInsert st1.cache url body,
         diags := st1.diags ++ ["Fetched: " ++ url] })
    | .redirect loc => onRedirect st1 loc
    | .err status =>
      match cacheLookup st.cache url with
      | some body =>
        (.ok body,
         { st1 with
           diags := st1.diags ++ ["Warning: using cached body for " ++ url] })
      | none => (.error (.HttpError status), st1)

/-- Modelled from the spec: fetching one URL with a budget of remaining
redirect hops; Location is followed while hops remain and the fetch
fails with RedirectLoop beyond the budget. -/
def fetchUrl (server : String → HttpResp) (reload : Bool) :
    Nat → FetchSt → String → Except FetchErr String × FetchSt
  | 0, st, url =>
    fetchStep server reload st url fun st1 _ => (.error .RedirectLoop, st1)
  | fuel + 1, st, url =>
    fetchStep server reload st url fun st1 loc =>
      fetchUrl server reload fuel st1 loc

/-- The redirect budget: up to ten redirects are followed. -/
def maxRedirects : Nat := 10

/-- A fetch with the default redirect budget. -/
def fetchHttp (server : String → HttpResp) (reload : Bool) (st : FetchSt)
    (url : String) : Except FetchErr String × FetchSt :=
  fetchUrl server reload maxRedirects st url

/-- Fetching the module list of a bundler run in order, threading the
fetcher state. -/
def runFetchList (server : String → HttpResp) :
    FetchSt → List String → List (Except FetchErr String) × FetchSt
  | st, [] => ([], st)
  | st, u :: us =>
    let r := fetchHttp server false st u
    let rest := runFetchList server r.2 us
    (r.1 :: rest.1, rest.2)

/-- Modelled from the spec: a bundler run over an unchanged input
fetches the fixed list of module URLs of the dependency walk, starting
from the given on-disk cache with empty diagnostic and request logs.
The emitted bundle is a deterministic function of the fetched sources,
so the run is represented by the list of fetch results together with
the final fetcher state. -/
def runBundler (server : String → HttpResp) (cache : List (String × String))
    (urls : List String) : List (Except FetchErr String) × FetchSt :=
  runFetchList server ⟨cache, [], []⟩ urls

/-! ## Watch driver

Modelled from the spec: runScenariosWatch lives in
funee-lib/validator/index.ts, which is not part of src/; per section
4.8 it collects the union of the uri fields of every scenario's
verify.references map to derive the watch set. -/

/-- A Closure record: captured expression source and the map from
identifier as written to canonical name. -/
structure ClosureRec where
  expression : String
  references : List (String × CanonicalName)

/-- A scenario whose verify field is a Closure. -/
structure Scenario where
  description : String
  verify : ClosureRec

/-- The scenario module: what it imports and the scenarios it passes
to runScenariosWatch. -/
structure ScenarioModule where
  imports : List String
  scenarios : List Scenario

/-- Modelled from the spec: the files watched by runScenariosWatch, the
union over all scenarios of the uri fields of verify.references. -/
def runScenariosWatchSet (m : ScenarioModule) : List String :=
  ((m.scenarios.map fun s => s.verify.references.map fun r => r.2.uri).flatten).dedup

/-! ## Concrete instances used by the witnesses -/

/-- Canonical name of the addOne macro of the simple macro fixture. -/
def addOneCN : CanonicalName := ⟨"file:///entry.ts", "addOne"⟩

/-- Canonical name of the entry default export. -/
def mainCN : CanonicalName := ⟨"file:///entry.ts", "default"⟩

/-- The simple macro fixture: a macro addOne and an entry computing
addOne(5). -/
def pW1 : Program :=
  ⟨[⟨addOneCN, .call createMacroCN [.atom "(arg) => expansion"]⟩,
    ⟨mainCN, .call addOneCN [.atom "5"]⟩], mainCN⟩

/-- The sandboxed evaluation of the addOne macro body. -/
def mfW1 : CanonicalName → List Expr → Expr := fun _ _ => .atom "(5) + 1"

/-- The expected bundle of the simple macro fixture. -/
def qW1 : Program := ⟨[⟨mainCN, .atom "(5) + 1"⟩], mainCN⟩

/-- Canonical name of the self-recursive macro of the infinite macro
fixture. -/
def loopCN : CanonicalName := ⟨"file:///entry.ts", "loopMacroFn"⟩

/-- The infinite macro fixture: a macro that expands to a call of
itself and an entry invoking it. -/
def pW2 : Program :=
  ⟨[⟨loopCN, .call createMacroCN [.atom "(arg) => self call"]⟩,
    ⟨mainCN, .call loopCN [.atom "x"]⟩], mainCN⟩

/-- The sandboxed evaluation of the self-recursive macro: it returns a
call of itself with the same argument. -/
def mfW2 : CanonicalName → List Expr → Expr := fun _ args => .call loopCN args

/-- A bundle in which a createMacro call survived unexpanded into the
entry. -/
def qW7 : Program := ⟨[⟨mainCN, .call createMacroCN [.atom "fn"]⟩], mainCN⟩

/-- A server holding one utils module at a URL with a query string. -/
def serverW3 : String → HttpResp := fun u =>
  if u = "http://localhost:8787/utils.ts?cache-test=1" then .ok "export const helper = () => 1;"
  else .err 404

/-- A server every response of which redirects back into the chain. -/
def serverW4 : String → HttpResp := fun u =>
  if u = "http://localhost:8787/infinite-redirect.ts" then .redirect "http://localhost:8787/redirect-hop.ts"
  else .redirect "http://localhost:8787/infinite-redirect.ts"

/-- The scenario module of the watch test: used.ts and unused.ts are
both imported, but only usedFn of used.ts occurs in the references of
the single scenario. -/
def scenarioModW6 : ScenarioModule :=
  ⟨["/tmp/watch/used.ts", "/tmp/watch/unused.ts"],
   [⟨"only uses usedFn in closure",
     ⟨"async () => assert(usedFn() === used)",
      [("usedFn", ⟨"/tmp/watch/used.ts", "usedFn"⟩)]⟩⟩]⟩

/-- Modelled from the spec: the CLI front end maps a fetch error to
exit status 1 and a human-readable diagnostic line. -/
def cliFetch (r : Except FetchErr String) : CliOutcome :=
  match r with
  | .ok _ => ⟨0, []⟩
  | .error e => ⟨1, [fetchErrMessage e]⟩

/-- Every entry of the first cache is an entry of the second. -/
def Extends (c C : List (String × String)) : Prop :=
  ∀ u b, cacheLookup c u = some b → cacheLookup C u = some b

/-- Every entry of the second cache comes from the first cache or
records the current server body of its URL. -/
def NewOk (server : String → HttpResp) (c C : List (String × String)) :
    Prop :=
  ∀ u b, cacheLookup C u = some b →
    cacheLookup c u = some b ∨ server u = .ok b

/-- The relation between the cache a run started from and the cache
left behind: entries persist and new entries hold server bodies. -/
def CacheInv (server : String → HttpResp)
    (c C : List (String × String)) : Prop :=
  Extends c C ∧ NewOk server c C

/-- isCreateMacroCall: whether an expression is syntactically a call of
createMacro, the shape that marks a declaration as a macro. -/
def isCreateMacroCall (e : Expr) : Bool :=
  match e with
  | .call c _ => c = createMacroCN
  | _ => false

/-- Modelled from the spec: the non-macro declarations of the input
contain no call of createMacro anywhere (each createMacro call of the
source is a whole macro-marked initializer). -/
def NonMacroCmFree (p : Program) : Prop :=
  ∀ d ∈ p.decls, isMacroDecl d = false →
    containsCall createMacroCN d.body = false

/-- Structural induction over expressions that hands the inductive
hypothesis for every element of an argument list. -/
def Expr.inductionOn {P : Expr → Prop}
    (hatom : ∀ s, P (.atom s))
    (hcall : ∀ c args, (∀ a ∈ args, P a) → P (.call c args)) :
    ∀ e, P e
  | .atom s => hatom s
  | .call c args =>
    hcall c args fun a ha =>
      have : sizeOf a < 1 + sizeOf c + sizeOf args := by
        have h := List.sizeOf_lt_of_mem ha
        omega
      Expr.inductionOn hatom hcall a
termination_by e => sizeOf e

/-! ## Theorems -/

/-- C8: the base64 encode and decode pair is not a round trip: decoding
the encoding of the three bytes of the ASCII text Man returns only the
first two bytes.  The guards of the decode loop test i - 1 < len and
i < len after i has already advanced past the chunk, one position late,
so the final byte of the input is dropped whenever its length is not
congruent to 1 modulo 3. -/
theorem base64_roundtrip_drops_final_byte :
    base64Encode [77, 97, 110] = "TWFu".data ∧
      base64Decode (base64Encode [77, 97, 110]) = [77, 97] ∧
      (base64Decode (base64Encode [77, 97, 110])).length ≠
        ([77, 97, 110] : List Nat).length := by
  refine ⟨by decide, by decide, by decide⟩

set_option maxRecDepth 8000 in
/-- Every byte below 256 renders as exactly two characters. -/
theorem byteToHex_length_two : ∀ b < 256, (byteToHex b).length = 2 := by
  decide

set_option maxRecDepth 8000 in
/-- Every byte below 256 renders with hexadecimal characters only. -/
theorem byteToHex_chars_hex : ∀ b < 256, ∀ c ∈ byteToHex b, c ∈ hexChars := by
  decide

/-- The total length of the per-byte hex renderings. -/
theorem sum_length_byteToHex (l : List Nat) (h : ∀ b ∈ l, b < 256) :
    ((l.map byteToHex).map List.length).sum = 2 * l.length := by
  induction l with
  | nil => simp
  | cons a t ih =>
    have ha : (byteToHex a).length = 2 :=
      byteToHex_length_two a (h a (List.mem_cons_self a t))
    have ht := ih fun b hb => h b (List.mem_cons_of_mem a hb)
    simp only [List.map_cons, List.sum_cons, List.length_cons, ha, ht]
    omega

/-- C10: for every desired length, if randomBytes returns exactly the
requested number of bytes (each a byte value), cryptoRandomString
returns a string of exactly the desired length consisting only of
lowercase hexadecimal characters. -/
theorem cryptoRandomString_length_and_hex (n : Nat) (rb : Nat → List Nat)
    (hlen : (rb (ceilHalf n)).length = ceilHalf n)
    (hbyte : ∀ b ∈ rb (ceilHalf n), b < 256) :
    (cryptoRandomString rb n).length = n ∧
      ∀ c ∈ cryptoRandomString rb n, c ∈ hexChars := by
  constructor
  · have hsum : (((rb (ceilHalf n)).map byteToHex).map List.length).sum =
        2 * ceilHalf n := by
      rw [sum_length_byteToHex (rb (ceilHalf n)) hbyte, hlen]
    have hge : n ≤ 2 * ceilHalf n := by
      have := Nat.div_add_mod (n + 1) 2
      have h2 : (n + 1) % 2 < 2 := Nat.mod_lt _ (by omega)
      unfold ceilHalf
      omega
    simp only [cryptoRandomString, List.length_take, List.length_flatten]
    omega
  · intro c hc
    simp only [cryptoRandomString] at hc
    have hc2 : c ∈ ((rb (ceilHalf n)).map byteToHex).flatten :=
      List.take_subset _ _ hc
    rcases List.mem_flatten.mp hc2 with ⟨li, hli, hcli⟩
    rcases List.mem_map.mp hli with ⟨b, hb, rfl⟩
    exact byteToHex_chars_hex b (hbyte b hb) c hcli

/-- Witness for C10 at desired length 5 with a concrete byte source. -/
theorem cryptoRandomString_length_and_hex_witness :
    (cryptoRandomString (fun k => List.replicate k 255) 5).length = 5 ∧
      ∀ c ∈ cryptoRandomString (fun k => List.replicate k 255) 5,
        c ∈ hexChars :=
  cryptoRandomString_length_and_hex 5 (fun k => List.replicate k 255)
    (by decide) (by decide)

/-- The characters that are not the join separator. -/
def notSep (c : Char) : Bool := c != '_'

/-- takeWhile keeps a list all of whose characters satisfy the
predicate. -/
theorem takeWhile_eq_self_of_all {p : Char → Bool} :
    ∀ l : List Char, (∀ c ∈ l, p c = true) → l.takeWhile p = l := by
  intro l
  induction l with
  | nil => intro _; rfl
  | cons x xs ih =>
    intro h
    have hx := h x (List.mem_cons_self x xs)
    simp [List.takeWhile_cons, hx, ih fun c hc => h c (List.mem_cons_of_mem x hc)]

/-- takeWhile stops exactly at the first failing character after a
clean prefix. -/
theorem takeWhile_append_stop {p : Char → Bool} (a : Char) (t : List Char)
    (ha : p a = false) :
    ∀ l : List Char, (∀ c ∈ l, p c = true) → (l ++ a :: t).takeWhile p = l := by
  intro l
  induction l with
  | nil => intro _; simp [List.takeWhile_cons, ha]
  | cons x xs ih =>
    intro h
    have hx := h x (List.mem_cons_self x xs)
    simp [List.takeWhile_cons, hx, ih fun c hc => h c (List.mem_cons_of_mem x hc)]

/-- The first element of an underscore join is recovered by takeWhile
when it is free of underscores. -/
theorem joinUnderscore_head (x : List Char) (hx : ∀ c ∈ x, notSep c = true) :
    ∀ xs, (joinUnderscore (x :: xs)).takeWhile notSep = x := by
  intro xs
  cases xs with
  | nil => exact takeWhile_eq_self_of_all x hx
  | cons y ys =>
    show (x ++ '_' :: joinUnderscore (y :: ys)).takeWhile notSep = x
    exact takeWhile_append_stop '_' _ (by decide) x hx

/-- Underscore-free means notSep everywhere. -/
theorem notSep_of_not_mem {s : List Char} (h : '_' ∉ s) :
    ∀ c ∈ s, notSep c = true := by
  intro c hc
  have : c ≠ '_' := fun e => h (e ▸ hc)
  simpa [notSep, bne_iff_ne] using this

/-- join("_") is injective on lists of nonempty strings that contain no
underscore. -/
theorem joinUnderscore_inj :
    ∀ r1 r2 : List (List Char),
      (∀ s ∈ r1, s ≠ [] ∧ '_' ∉ s) → (∀ s ∈ r2, s ≠ [] ∧ '_' ∉ s) →
      joinUnderscore r1 = joinUnderscore r2 → r1 = r2 := by
  intro r1
  induction r1 with
  | nil =>
    intro r2 _ h2 heq
    cases r2 with
    | nil => rfl
    | cons y ys =>
      exfalso
      have hy := (h2 y (List.mem_cons_self y ys)).1
      cases ys with
      | nil => exact hy ((by simpa [joinUnderscore] using heq.symm : y = []))
      | cons z zs =>
        have : ([] : List Char) = y ++ '_' :: joinUnderscore (z :: zs) := heq
        have hlen := congrArg List.length this
        simp at hlen
        omega
  | cons x xs ih =>
    intro r2 h1 h2 heq
    cases r2 with
    | nil =>
      exfalso
      have hx := (h1 x (List.mem_cons_self x xs)).1
      cases xs with
      | nil => exact hx ((by simpa [joinUnderscore] using heq : x = []))
      | cons w ws =>
        have : x ++ '_' :: joinUnderscore (w :: ws) = ([] : List Char) := heq
        have hlen := congrArg List.length this
        simp at hlen
    | cons y ys =>
      have hx := h1 x (List.mem_cons_self x xs)
      have hy := h2 y (List.mem_cons_self y ys)
      have hxs : ∀ s ∈ xs, s ≠ [] ∧ '_' ∉ s :=
        fun s hs => h1 s (List.mem_cons_of_mem x hs)
      have hys : ∀ s ∈ ys, s ≠ [] ∧ '_' ∉ s :=
        fun s hs => h2 s (List.mem_cons_of_mem y hs)
      have hhead : x = y := by
        have e1 := joinUnderscore_head x (notSep_of_not_mem hx.2) xs
        have e2 := joinUnderscore_head y (notSep_of_not_mem hy.2) ys
        rw [heq] at e1
        rw [e2] at e1
        exact e1.symm
      subst hhead
      cases xs with
      | nil =>
        cases ys with
        | nil => rfl
        | cons z zs =>
          exfalso
          have : x = x ++ '_' :: joinUnderscore (z :: zs) := heq
          have hlen := congrArg List.length this
          simp at hlen
      | cons w ws =>
        cases ys with
        | nil =>
          exfalso
          have : x ++ '_' :: joinUnderscore (w :: ws) = x := heq
          have hlen := congrArg List.length this
          simp at hlen
        | cons z zs =>
          have htails : '_' :: joinUnderscore (w :: ws) =
              '_' :: joinUnderscore (z :: zs) :=
            List.append_cancel_left (heq :
              x ++ '_' :: joinUnderscore (w :: ws) =
                x ++ '_' :: joinUnderscore (z :: zs))
          have hj : joinUnderscore (w :: ws) = joinUnderscore (z :: zs) := by
            injection htails
          rw [ih (z :: zs) hxs hys hj]

/-- Every character of an underscore join is the separator or a
character of one of the elements. -/
theorem mem_joinUnderscore {c : Char} :
    ∀ r : List (List Char), c ∈ joinUnderscore r →
      c = '_' ∨ ∃ s ∈ r, c ∈ s := by
  intro r
  induction r with
  | nil => intro h; cases h
  | cons x xs ih =>
    cases xs with
    | nil =>
      intro h
      exact Or.inr ⟨x, List.mem_cons_self x [], h⟩
    | cons y ys =>
      intro h
      rcases List.mem_append.mp h with hx | hrest
      · exact Or.inr ⟨x, List.mem_cons_self x _, hx⟩
      · rcases List.mem_cons.mp hrest with rfl | hj
        · exact Or.inl rfl
        · rcases ih hj with h1 | ⟨s, hs, hcs⟩
          · exact Or.inl h1
          · exact Or.inr ⟨s, List.mem_cons_of_mem x hs, hcs⟩

/-- Replacing slashes is the identity on slash-free strings. -/
theorem replaceSlashes_eq_self {s : List Char} (h : ∀ c ∈ s, c ≠ '/') :
    replaceSlashes s = s := by
  induction s with
  | nil => rfl
  | cons x xs ih =>
    have hx : x ≠ '/' := h x (List.mem_cons_self x xs)
    simp [replaceSlashes, hx] at ih ⊢
    exact ih fun c hc => h c (List.mem_cons_of_mem x hc)

/-- C9 counterexample: two argument lists with different element-wise
renderings, a and b versus the single rendering a_b, produce the same
cache file path, so the claim as stated fails. -/
theorem memoCachePath_collision :
    memoCachePath "f".data [['a'], ['b']] =
        memoCachePath "f".data [['a', '_', 'b']] ∧
      ([['a'], ['b']] : List (List Char)) ≠ [['a', '_', 'b']] := by
  refine ⟨by decide, by decide⟩

/-- C9 amended: when no String() rendering is empty or contains an
underscore or a slash, distinct rendering lists yield distinct cache
file paths, so a call never reads a result cached for a different
argument list. -/
theorem memoCachePath_injective_on_safe_renderings
    (identifier : List Char) (r1 r2 : List (List Char))
    (h1 : ∀ s ∈ r1, s ≠ [] ∧ '_' ∉ s ∧ '/' ∉ s)
    (h2 : ∀ s ∈ r2, s ≠ [] ∧ '_' ∉ s ∧ '/' ∉ s)
    (hne : r1 ≠ r2) :
    memoCachePath identifier r1 ≠ memoCachePath identifier r2 := by
  intro heq
  apply hne
  have h3 : identifier ++ '_' :: replaceSlashes (joinUnderscore r1) =
      identifier ++ '_' :: replaceSlashes (joinUnderscore r2) :=
    List.append_cancel_left heq
  have h4 : replaceSlashes (joinUnderscore r1) =
      replaceSlashes (joinUnderscore r2) := by
    have h5 := List.append_cancel_left h3
    injection h5
  have hs1 : ∀ c ∈ joinUnderscore r1, c ≠ '/' := by
    intro c hc
    rcases mem_joinUnderscore r1 hc with rfl | ⟨s, hs, hcs⟩
    · decide
    · exact fun e => (h1 s hs).2.2 (e ▸ hcs)
  have hs2 : ∀ c ∈ joinUnderscore r2, c ≠ '/' := by
    intro c hc
    rcases mem_joinUnderscore r2 hc with rfl | ⟨s, hs, hcs⟩
    · decide
    · exact fun e => (h2 s hs).2.2 (e ▸ hcs)
  rw [replaceSlashes_eq_self hs1, replaceSlashes_eq_self hs2] at h4
  exact joinUnderscore_inj r1 r2
    (fun s hs => ⟨(h1 s hs).1, (h1 s hs).2.1⟩)
    (fun s hs => ⟨(h2 s hs).1, (h2 s hs).2.1⟩) h4

/-- Witness for the amended C9 at two concrete singleton argument
lists. -/
theorem memoCachePath_injective_witness :
    memoCachePath "f".data [['a']] ≠ memoCachePath "f".data [['b']] :=
  memoCachePath_injective_on_safe_renderings "f".data [['a']] [['b']]
    (by decide) (by decide) (by decide)

/-- C6: the watch set of runScenariosWatch is exactly the union of the
uri fields of every scenario's verify.references; a file that is
imported by the scenario module but referenced by no scenario is not
watched. -/
theorem runScenariosWatch_minimal_watch_set (m : ScenarioModule) :
    (∀ u, u ∈ runScenariosWatchSet m ↔
        ∃ s ∈ m.scenarios, ∃ r ∈ s.verify.references, r.2.uri = u) ∧
      ∀ f ∈ m.imports,
        (∀ s ∈ m.scenarios, ∀ r ∈ s.verify.references, r.2.uri ≠ f) →
          f ∉ runScenariosWatchSet m := by
  have hiff : ∀ u, u ∈ runScenariosWatchSet m ↔
      ∃ s ∈ m.scenarios, ∃ r ∈ s.verify.references, r.2.uri = u := by
    intro u
    unfold runScenariosWatchSet
    rw [List.mem_dedup, List.mem_flatten]
    constructor
    · rintro ⟨li, hli, hu⟩
      rcases List.mem_map.mp hli with ⟨s, hs, rfl⟩
      rcases List.mem_map.mp hu with ⟨r, hr, rfl⟩
      exact ⟨s, hs, r, hr, rfl⟩
    · rintro ⟨s, hs, r, hr, rfl⟩
      exact ⟨_, List.mem_map.mpr ⟨s, hs, rfl⟩, List.mem_map.mpr ⟨r, hr, rfl⟩⟩
  refine ⟨hiff, fun f _ href hf => ?_⟩
  rcases (hiff f).mp hf with ⟨s, hs, r, hr, hru⟩
  exact href s hs r hr hru

/-- Witness for C6: in the watch fixture, unused.ts is imported but
appears in no verify.references, so it is not watched. -/
theorem runScenariosWatch_minimal_watch_set_witness :
    "/tmp/watch/unused.ts" ∈ scenarioModW6.imports ∧
      "/tmp/watch/unused.ts" ∉ runScenariosWatchSet scenarioModW6 :=
  ⟨by decide,
   (runScenariosWatch_minimal_watch_set scenarioModW6).2 _ (by decide)
     (by decide)⟩

/-- The list evaluator propagates the backstop error of any element. -/
theorem evalEmittedList_error {args : List Expr} {a : Expr}
    (ha : a ∈ args)
    (he : evalEmitted a = .error .CreateMacroUnexpanded) :
    evalEmittedList args = .error .CreateMacroUnexpanded := by
  induction args with
  | nil => cases ha
  | cons x xs ih =>
    rcases List.mem_cons.mp ha with rfl | hxs
    · simp [evalEmittedList, he]
    · cases hx : evalEmitted x with
      | error e2 => cases e2; simp [evalEmittedList, hx]
      | ok v => simp [evalEmittedList, hx, ih hxs]

/-- The list membership form of containsCallList. -/
theorem containsCallList_eq_any (t : CanonicalName) (l : List Expr) :
    containsCallList t l = l.any (containsCall t) := by
  induction l with
  | nil => rfl
  | cons x xs ih => simp [containsCallList, ih]

/-- Running an emitted expression that still contains a createMacro
call throws the backstop error. -/
theorem evalEmitted_error_of_containsCall :
    ∀ e, containsCall createMacroCN e = true →
      evalEmitted e = .error .CreateMacroUnexpanded := by
  intro e
  induction e using Expr.inductionOn with
  | hatom s => intro h; simp [containsCall] at h
  | hcall c args ih =>
    intro h
    rw [containsCall, containsCallList_eq_any] at h
    rcases Bool.or_eq_true_iff.mp h with hc | hargs
    · have hcm : c = createMacroCN := of_decide_eq_true hc
      cases hL : evalEmittedList args with
      | error e2 => cases e2; simp [evalEmitted, hL]
      | ok v => simp [evalEmitted, hL, hcm]
    · rcases List.any_eq_true.mp hargs with ⟨a, haargs, hca⟩
      have hL := evalEmittedList_error haargs (ih a haargs hca)
      simp [evalEmitted, hL]

/-- C7: for every bundle in which a createMacro call survives into the
entry declaration, running the bundle throws the backstop: the exit
status is nonzero and the diagnostic stream says createMacro was not
expanded. -/
theorem createMacro_unexpanded_backstop (q : Program) (d : Decl)
    (hentry : declNamed q q.entry = some d)
    (hsurv : containsCall createMacroCN d.body = true) :
    runEmitted q = ⟨1, ["createMacro was not expanded"]⟩ ∧
      (runEmitted q).exitCode ≠ 0 ∧
      "createMacro was not expanded" ∈ (runEmitted q).stderrLines := by
  have he := evalEmitted_error_of_containsCall d.body hsurv
  have hrun : runEmitted q = ⟨1, ["createMacro was not expanded"]⟩ := by
    simp [runEmitted, hentry, he, rtErrMessage]
  refine ⟨hrun, ?_, ?_⟩
  · rw [hrun]; decide
  · rw [hrun]; exact List.mem_cons_self _ _

/-- Witness for C7 at a concrete one-declaration bundle. -/
theorem createMacro_unexpanded_backstop_witness :
    runEmitted qW7 = ⟨1, ["createMacro was not expanded"]⟩ ∧
      (runEmitted qW7).exitCode ≠ 0 ∧
      "createMacro was not expanded" ∈ (runEmitted qW7).stderrLines :=
  createMacro_unexpanded_backstop qW7 ⟨mainCN, .call createMacroCN [.atom "fn"]⟩
    (by rfl) (by rfl)

/-- The empty cache has no entries. -/
theorem cacheLookup_nil (u : String) :
    cacheLookup ([] : List (String × String)) u = none := rfl

/-- Reading back the entry just inserted. -/
theorem cacheLookup_insert (c : List (String × String)) (u b v : String) :
    cacheLookup (cacheInsert c u b) v =
      if u = v then some b else cacheLookup c v := by
  by_cases h : u = v
  · subst h
    simp [cacheLookup, cacheInsert, List.find?_cons_of_pos]
  · simp [cacheLookup, cacheInsert, List.find?_cons_of_neg, h]

/-- C3: on a cache miss answered 2xx, the fetch returns the body,
stores it keyed by the full URL, emits exactly one Fetched line, and
issues exactly one network request; a second run against the resulting
cache returns the same body with no network request and no diagnostic,
leaving the cache unchanged. -/
theorem http_cache_fetch_then_cache_hit (server : String → HttpResp)
    (st0 : FetchSt) (url body : String)
    (hmiss : cacheLookup st0.cache url = none)
    (hok : server url = .ok body) :
    (fetchHttp server false st0 url).1 = .ok body ∧
      cacheLookup (fetchHttp server false st0 url).2.cache url = some body ∧
      (fetchHttp server false st0 url).2.diags =
        st0.diags ++ ["Fetched: " ++ url] ∧
      (fetchHttp server false st0 url).2.net = st0.net ++ [url] ∧
      (fetchHttp server false
          ⟨(fetchHttp server false st0 url).2.cache, [], []⟩ url).1 =
        .ok body ∧
      (fetchHttp server false
          ⟨(fetchHttp server false st0 url).2.cache, [], []⟩ url).2 =
        ⟨(fetchHttp server false st0 url).2.cache, [], []⟩ := by
  have h1 : fetchHttp server false st0 url =
      (.ok body,
       ⟨cacheInsert st0.cache url body,
        st0.diags ++ ["Fetched: " ++ url], st0.net ++ [url]⟩) := by
    unfold fetchHttp maxRedirects fetchUrl fetchStep
    simp [hmiss, hok]
  have h2 : fetchHttp server false
      ⟨cacheInsert st0.cache url body, [], []⟩ url =
      (.ok body, ⟨cacheInsert st0.cache url body, [], []⟩) := by
    unfold fetchHttp maxRedirects fetchUrl fetchStep
    simp [cacheLookup_insert]
  rw [h1]
  refine ⟨rfl, by simp [cacheLookup_insert], rfl, rfl, ?_, ?_⟩
  · simpa using congrArg Prod.fst h2
  · simpa using congrArg Prod.snd h2

/-- Witness for C3 at a concrete server, URL with query string, and
empty starting state. -/
theorem http_cache_fetch_then_cache_hit_witness :
    (fetchHttp serverW3 false ⟨[], [], []⟩
        "http://localhost:8787/utils.ts?cache-test=1").1 =
      .ok "export const helper = () => 1;" ∧
      cacheLookup (fetchHttp serverW3 false ⟨[], [], []⟩
          "http://localhost:8787/utils.ts?cache-test=1").2.cache
          "http://localhost:8787/utils.ts?cache-test=1" =
        some "export const helper = () => 1;" ∧
      (fetchHttp serverW3 false ⟨[], [], []⟩
          "http://localhost:8787/utils.ts?cache-test=1").2.diags =
        [] ++ ["Fetched: " ++ "http://localhost:8787/utils.ts?cache-test=1"] ∧
      (fetchHttp serverW3 false ⟨[], [], []⟩
          "http://localhost:8787/utils.ts?cache-test=1").2.net =
        [] ++ ["http://localhost:8787/utils.ts?cache-test=1"] ∧
      (fetchHttp serverW3 false
          ⟨(fetchHttp serverW3 false ⟨[], [], []⟩
              "http://localhost:8787/utils.ts?cache-test=1").2.cache, [], []⟩
          "http://localhost:8787/utils.ts?cache-test=1").1 =
        .ok "export const helper = () => 1;" ∧
      (fetchHttp serverW3 false
          ⟨(fetchHttp serverW3 false ⟨[], [], []⟩
              "http://localhost:8787/utils.ts?cache-test=1").2.cache, [], []⟩
          "http://localhost:8787/utils.ts?cache-test=1").2 =
        ⟨(fetchHttp serverW3 false ⟨[], [], []⟩
            "http://localhost:8787/utils.ts?cache-test=1").2.cache, [], []⟩ :=
  http_cache_fetch_then_cache_hit serverW3 ⟨[], [], []⟩
    "http://localhost:8787/utils.ts?cache-test=1"
    "export const helper = () => 1;" (by rfl) (by rfl)

/-- On an empty cache and an all-redirecting server, a fetch with any
hop budget fails with RedirectLoop after issuing one request per
available hop plus the original request, touching neither cache nor
Fetched lines. -/
theorem fetchUrl_all_redirects (server : String → HttpResp)
    (hr : ∀ u, ∃ loc, server u = .redirect loc) :
    ∀ (fuel : Nat) (st : FetchSt) (url : String), st.cache = [] →
      (fetchUrl server false fuel st url).1 = .error .RedirectLoop ∧
      (fetchUrl server false fuel st url).2.net.length =
        st.net.length + (fuel + 1) ∧
      (fetchUrl server false fuel st url).2.cache = [] := by
  intro fuel
  induction fuel with
  | zero =>
    intro st url hc
    obtain ⟨loc, hloc⟩ := hr url
    have hcl : cacheLookup st.cache url = none := by
      simp [cacheLookup, hc]
    simp [fetchUrl, fetchStep, hcl, hloc, hc, cacheLookup_nil]
  | succ k ih =>
    intro st url hc
    obtain ⟨loc, hloc⟩ := hr url
    have hcl : cacheLookup st.cache url = none := by
      simp [cacheLookup, hc]
    have ihl := ih { st with net := st.net ++ [url] } loc hc
    simp only [fetchUrl, fetchStep, hcl, hloc]
    refine ⟨ihl.1, ?_, ihl.2.2⟩
    have h2 := ihl.2.1
    simp at h2
    simp [h2]
    omega

/-- C4: with the default budget the fetcher follows at most ten
redirect hops; on an unbounded redirect chain it fails with
RedirectLoop after eleven requests, and the CLI aborts with exit
status 1 and a diagnostic naming the redirect condition. -/
theorem redirect_loop_after_max_hops (server : String → HttpResp)
    (st : FetchSt) (url : String)
    (hc : st.cache = [])
    (hr : ∀ u, ∃ loc, server u = .redirect loc) :
    (fetchHttp server false st url).1 = .error .RedirectLoop ∧
      (fetchHttp server false st url).2.net.length =
        st.net.length + (maxRedirects + 1) ∧
      cliFetch (fetchHttp server false st url).1 =
        ⟨1, ["redirect loop: too many redirects"]⟩ := by
  have h := fetchUrl_all_redirects server hr maxRedirects st url hc
  refine ⟨h.1, h.2.1, ?_⟩
  show cliFetch (fetchUrl server false maxRedirects st url).1 = _
  rw [h.1]
  rfl

/-- Witness for C4 at a concrete two-URL redirect cycle. -/
theorem redirect_loop_after_max_hops_witness :
    (fetchHttp serverW4 false ⟨[], [], []⟩
        "http://localhost:8787/infinite-redirect.ts").1 =
      .error .RedirectLoop ∧
      (fetchHttp serverW4 false ⟨[], [], []⟩
          "http://localhost:8787/infinite-redirect.ts").2.net.length =
        ([] : List String).length + (maxRedirects + 1) ∧
      cliFetch (fetchHttp serverW4 false ⟨[], [], []⟩
          "http://localhost:8787/infinite-redirect.ts").1 =
        ⟨1, ["redirect loop: too many redirects"]⟩ :=
  redirect_loop_after_max_hops serverW4 ⟨[], [], []⟩
    "http://localhost:8787/infinite-redirect.ts" rfl
    (fun u =>
      if h : u = "http://localhost:8787/infinite-redirect.ts" then
        ⟨"http://localhost:8787/redirect-hop.ts", by simp [serverW4, h]⟩
      else
        ⟨"http://localhost:8787/infinite-redirect.ts", by simp [serverW4, h]⟩)

/-- The list form of expandExprList. -/
theorem expandExprList_eq_map (isM : CanonicalName → Bool)
    (mf : CanonicalName → List Expr → Expr) (l : List Expr) :
    expandExprList isM mf l = l.map (expandExpr isM mf) := by
  induction l with
  | nil => rfl
  | cons x xs ih => simp [expandExprList, ih]

/-- The marker test is a test on the body shape. -/
theorem isMacroDecl_eq_body (d : Decl) :
    isMacroDecl d = isCreateMacroCall d.body := by
  unfold isMacroDecl isCreateMacroCall
  cases d.body <;> rfl

/-- An expression free of createMacro calls is not itself a createMacro
call. -/
theorem isCreateMacroCall_false_of_cmFree {e : Expr}
    (h : containsCall createMacroCN e = false) :
    isCreateMacroCall e = false := by
  cases e with
  | atom s => rfl
  | call c args =>
    rw [containsCall] at h
    rcases Bool.or_eq_false_iff.mp h with ⟨hc, _⟩
    simpa [isCreateMacroCall] using hc

/-- Expansion keeps the declaration name. -/
theorem expandOnceDecl_name (isM : CanonicalName → Bool)
    (mf : CanonicalName → List Expr → Expr) (d : Decl) :
    (expandOnceDecl isM mf d).name = d.name := by
  unfold expandOnceDecl
  split <;> rfl

/-- Expansion keeps the macro marker when macro evaluation never
returns a bare createMacro call. -/
theorem expandOnceDecl_marker (isM : CanonicalName → Bool)
    (mf : CanonicalName → List Expr → Expr)
    (hmf : ∀ c args, isM c = true → isCreateMacroCall (mf c args) = false)
    (d : Decl) :
    isMacroDecl (expandOnceDecl isM mf d) = isMacroDecl d := by
  by_cases hd : isMacroDecl d = true
  · simp [expandOnceDecl, hd]
  · have hd2 : isMacroDecl d = false := by
      cases hmd : isMacroDecl d
      · rfl
      · exact absurd hmd hd
    rw [hd2]
    rw [expandOnceDecl, hd2]
    simp only [Bool.false_eq_true, if_false]
    rw [isMacroDecl_eq_body]
    rw [isMacroDecl_eq_body] at hd2
    cases hb : d.body with
    | atom s => simp [expandExpr, isCreateMacroCall]
    | call c args =>
      rw [hb] at hd2
      by_cases hM : isM c = true
      · simp only [expandExpr, hM, if_true]
        exact hmf c args hM
      · simp only [expandExpr, hM, if_false, Bool.false_eq_true]
        simpa [isCreateMacroCall] using hd2

/-- Expansion of the declaration list keeps the macro name list. -/
theorem filter_map_macroNames {F : Decl → Decl}
    (hname : ∀ d, (F d).name = d.name)
    (hmark : ∀ d, isMacroDecl (F d) = isMacroDecl d) :
    ∀ l : List Decl,
      ((l.map F).filter isMacroDecl).map Decl.name =
        (l.filter isMacroDecl).map Decl.name := by
  intro l
  induction l with
  | nil => rfl
  | cons d t ih =>
    by_cases hd : isMacroDecl d = true
    · simp [List.filter_cons, hmark d, hname d, hd, ih]
    · have hd2 : isMacroDecl d = false := by
        cases hmd : isMacroDecl d
        · rfl
        · exact absurd hmd hd
      simp [List.filter_cons, hmark d, hd2, ih]

/-- One expansion pass keeps the macro name list. -/
theorem macroNames_expandOnce (mf : CanonicalName → List Expr → Expr)
    (p : Program)
    (hmf : ∀ c args, (decide (c ∈ macroNames p)) = true →
      isCreateMacroCall (mf c args) = false) :
    macroNames (expandOnce mf p) = macroNames p := by
  unfold macroNames expandOnce
  exact filter_map_macroNames
    (expandOnceDecl_name _ mf)
    (expandOnceDecl_marker _ mf hmf) p.decls

/-- One expansion pass keeps the entry. -/
theorem expandOnce_entry (mf : CanonicalName → List Expr → Expr)
    (p : Program) : (expandOnce mf p).entry = p.entry := rfl

/-- When the only macro is a self-reproducing one, expansion preserves
the presence of a call to it. -/
theorem containsCall_expandExpr_self (isM : CanonicalName → Bool)
    (mf : CanonicalName → List Expr → Expr) (m : CanonicalName)
    (hisM : ∀ c, isM c = true → c = m)
    (hself : ∀ args, mf m args = .call m args) :
    ∀ e, containsCall m e = true →
      containsCall m (expandExpr isM mf e) = true := by
  intro e
  induction e using Expr.inductionOn with
  | hatom s => intro h; simp [containsCall] at h
  | hcall c args ih =>
    intro h
    rw [containsCall, containsCallList_eq_any] at h
    by_cases hM : isM c = true
    · have hcm := hisM c hM
      subst hcm
      simp only [expandExpr, hM, if_true, hself]
      simp [containsCall]
    · simp only [expandExpr, hM, Bool.false_eq_true, if_false]
      rw [containsCall, containsCallList_eq_any, expandExprList_eq_map]
      rcases Bool.or_eq_true_iff.mp h with hc | hargs
      · exact Bool.or_eq_true_iff.mpr (Or.inl hc)
      · rcases List.any_eq_true.mp hargs with ⟨a, ha, hca⟩
        refine Bool.or_eq_true_iff.mpr (Or.inr ?_)
        exact List.any_eq_true.mpr
          ⟨expandExpr isM mf a, List.mem_map.mpr ⟨a, ha, rfl⟩, ih a ha hca⟩

/-- A program with a macro call witness has a macro call. -/
theorem hasAnyMacroCall_true_of (p : Program) (m : CanonicalName)
    (hm : m ∈ macroNames p)
    (hd : ∃ d ∈ p.decls, isMacroDecl d = false ∧
      containsCall m d.body = true) :
    hasAnyMacroCall p = true := by
  rcases hd with ⟨d, hdp, hnm, hcc⟩
  unfold hasAnyMacroCall
  rw [List.any_eq_true]
  refine ⟨d, hdp, ?_⟩
  rw [hnm]
  simpa [List.any_eq_true] using ⟨m, hm, hcc⟩

/-- One expansion pass keeps a macro call witness to the unique
self-reproducing macro. -/
theorem expandOnce_keeps_witness (mf : CanonicalName → List Expr → Expr)
    (p : Program) (m : CanonicalName)
    (hnames : macroNames p = [m])
    (hself : ∀ args, mf m args = .call m args)
    (hne : m ≠ createMacroCN)
    (hd : ∃ d ∈ p.decls, isMacroDecl d = false ∧
      containsCall m d.body = true) :
    ∃ d ∈ (expandOnce mf p).decls, isMacroDecl d = false ∧
      containsCall m d.body = true := by
  rcases hd with ⟨d, hdp, hnm, hcc⟩
  have hisM : ∀ c, decide (c ∈ macroNames p) = true → c = m := by
    intro c hc
    have := of_decide_eq_true hc
    rw [hnames] at this
    simpa using this
  have hmf : ∀ c args, decide (c ∈ macroNames p) = true →
      isCreateMacroCall (mf c args) = false := by
    intro c args hc
    have hcm := hisM c hc
    subst hcm
    rw [hself]
    simp [isCreateMacroCall, hne]
  refine ⟨expandOnceDecl (fun c => decide (c ∈ macroNames p)) mf d,
    List.mem_map.mpr ⟨d, hdp, rfl⟩, ?_, ?_⟩
  · rw [expandOnceDecl_marker _ mf hmf d, hnm]
  · rw [expandOnceDecl, hnm]
    simp only [Bool.false_eq_true, if_false]
    exact containsCall_expandExpr_self _ mf m hisM hself d.body hcc

/-- The expansion loop of a program whose unique macro reproduces
itself never reaches a fixed point and exhausts any fuel. -/
theorem expandLoop_stuck (mf : CanonicalName → List Expr → Expr)
    (m : CanonicalName)
    (hself : ∀ args, mf m args = .call m args)
    (hne : m ≠ createMacroCN) :
    ∀ (fuel : Nat) (p : Program), macroNames p = [m] →
      (∃ d ∈ p.decls, isMacroDecl d = false ∧
        containsCall m d.body = true) →
      expandLoop mf fuel p = .error .MacroRecursion := by
  intro fuel
  induction fuel with
  | zero =>
    intro p hnames hd
    have hm : m ∈ macroNames p := by rw [hnames]; exact List.mem_cons_self m []
    simp [expandLoop, hasAnyMacroCall_true_of p m hm hd]
  | succ k ih =>
    intro p hnames hd
    have hm : m ∈ macroNames p := by rw [hnames]; exact List.mem_cons_self m []
    have hmf : ∀ c args, decide (c ∈ macroNames p) = true →
        isCreateMacroCall (mf c args) = false := by
      intro c args hc
      have hcm : c = m := by
        have := of_decide_eq_true hc
        rw [hnames] at this
        simpa using this
      subst hcm
      rw [hself]
      simp [isCreateMacroCall, hne]
    have hnames2 : macroNames (expandOnce mf p) = [m] := by
      rw [macroNames_expandOnce mf p hmf, hnames]
    have hd2 := expandOnce_keeps_witness mf p m hnames hself hne hd
    simp only [expandLoop, hasAnyMacroCall_true_of p m hm hd, if_true]
    exact ih (expandOnce mf p) hnames2 hd2

/-- C2: a macro that expands to a call of itself with the same argument
keeps the expansion loop busy: with the default cap of 100 iterations
the loop stops with MacroRecursion and the CLI exits nonzero saying
macro expansion exceeded max iterations. -/
theorem self_recursive_macro_hits_iteration_cap
    (mf : CanonicalName → List Expr → Expr) (p : Program)
    (m : CanonicalName)
    (hself : ∀ args, mf m args = .call m args)
    (hne : m ≠ createMacroCN)
    (hnames : macroNames p = [m])
    (hcall : ∃ d ∈ p.decls, isMacroDecl d = false ∧
      containsCall m d.body = true) :
    expandLoop mf maxIterations p = .error .MacroRecursion ∧
      cliRun (expandLoop mf maxIterations p) =
        ⟨1, ["Macro expansion exceeded max iterations"]⟩ := by
  have h := expandLoop_stuck mf m hself hne maxIterations p hnames hcall
  exact ⟨h, by rw [h]; rfl⟩

/-- Witness for C2 at the concrete infinite macro fixture. -/
theorem self_recursive_macro_hits_iteration_cap_witness :
    expandLoop mfW2 maxIterations pW2 = .error .MacroRecursion ∧
      cliRun (expandLoop mfW2 maxIterations pW2) =
        ⟨1, ["Macro expansion exceeded max iterations"]⟩ :=
  self_recursive_macro_hits_iteration_cap mfW2 pW2 loopCN
    (fun _ => rfl) (by decide) (by rfl)
    ⟨⟨mainCN, .call loopCN [.atom "x"]⟩, by
      simp [pW2, List.mem_cons], by rfl, by rfl⟩

/-- Expansion with createMacro-free macro results keeps expressions
createMacro-free. -/
theorem cmFree_expandExpr (isM : CanonicalName → Bool)
    (mf : CanonicalName → List Expr → Expr)
    (hfns : ∀ c args, containsCall createMacroCN (mf c args) = false) :
    ∀ e, containsCall createMacroCN e = false →
      containsCall createMacroCN (expandExpr isM mf e) = false := by
  intro e
  induction e using Expr.inductionOn with
  | hatom s => intro _; simp [expandExpr, containsCall]
  | hcall c args ih =>
    intro h
    rw [containsCall, containsCallList_eq_any] at h
    rcases Bool.or_eq_false_iff.mp h with ⟨hc, hargs⟩
    by_cases hM : isM c = true
    · simp only [expandExpr, hM, if_true]
      exact hfns c args
    · simp only [expandExpr, hM, Bool.false_eq_true, if_false]
      rw [containsCall, containsCallList_eq_any, expandExprList_eq_map]
      refine Bool.or_eq_false_iff.mpr ⟨hc, ?_⟩
      rw [List.any_eq_false]
      intro x hx
      rcases List.mem_map.mp hx with ⟨a, ha, rfl⟩
      have hca : containsCall createMacroCN a = false := by
        have := List.any_eq_false.mp hargs a ha
        cases hcc : containsCall createMacroCN a
        · rfl
        · exact absurd hcc this
      rw [ih a ha hca]
      simp

/-- One expansion pass keeps the non-macro declarations createMacro
free. -/
theorem nonMacroCmFree_expandOnce (mf : CanonicalName → List Expr → Expr)
    (p : Program)
    (hfns : ∀ c args, containsCall createMacroCN (mf c args) = false)
    (h : NonMacroCmFree p) : NonMacroCmFree (expandOnce mf p) := by
  intro d hd hnm
  rcases List.mem_map.mp hd with ⟨d0, hd0, rfl⟩
  have hmf : ∀ c args, (fun c => decide (c ∈ macroNames p)) c = true →
      isCreateMacroCall (mf c args) = false :=
    fun c args _ => isCreateMacroCall_false_of_cmFree (hfns c args)
  have hm0 : isMacroDecl d0 = false := by
    rw [← expandOnceDecl_marker _ mf hmf d0]
    exact hnm
  rw [expandOnceDecl, hm0]
  simp only [Bool.false_eq_true, if_false]
  exact cmFree_expandExpr _ mf hfns d0.body (h d0 hd0 hm0)

/-- The iterated expansion passes keep names, entry, macro list and
createMacro-freeness. -/
theorem iterate_invariants (mf : CanonicalName → List Expr → Expr)
    (hfns : ∀ c args, containsCall createMacroCN (mf c args) = false) :
    ∀ (k : Nat) (p : Program),
      macroNames ((expandOnce mf)^[k] p) = macroNames p ∧
        ((expandOnce mf)^[k] p).entry = p.entry ∧
        (NonMacroCmFree p → NonMacroCmFree ((expandOnce mf)^[k] p)) := by
  intro k
  induction k with
  | zero => intro p; exact ⟨rfl, rfl, fun h => h⟩
  | succ n ih =>
    intro p
    rw [Function.iterate_succ_apply]
    have hmf : ∀ c args, (fun c => decide (c ∈ macroNames p)) c = true →
        isCreateMacroCall (mf c args) = false :=
      fun c args _ => isCreateMacroCall_false_of_cmFree (hfns c args)
    have h1 := ih (expandOnce mf p)
    refine ⟨?_, ?_, ?_⟩
    · rw [h1.1, macroNames_expandOnce mf p hmf]
    · rw [h1.2.1, expandOnce_entry]
    · intro h
      exact h1.2.2 (nonMacroCmFree_expandOnce mf p hfns h)

/-- A successful expansion loop is a finite iteration of passes ending
with no macro call. -/
theorem expandLoop_ok (mf : CanonicalName → List Expr → Expr) :
    ∀ (fuel : Nat) (p q : Program), expandLoop mf fuel p = .ok q →
      ∃ k, q = (expandOnce mf)^[k] p ∧ hasAnyMacroCall q = false := by
  intro fuel
  induction fuel with
  | zero =>
    intro p q h
    rw [expandLoop] at h
    by_cases hc : hasAnyMacroCall p = true
    · rw [if_pos hc] at h; cases h
    · rw [if_neg hc] at h
      cases h
      exact ⟨0, rfl, Bool.eq_false_iff.mpr hc⟩
  | succ k ih =>
    intro p q h
    rw [expandLoop] at h
    by_cases hc : hasAnyMacroCall p = true
    · rw [if_pos hc] at h
      rcases ih (expandOnce mf p) q h with ⟨n, hq, hnone⟩
      exact ⟨n + 1, by rw [Function.iterate_succ_apply]; exact hq, hnone⟩
    · rw [if_neg hc] at h
      cases h
      exact ⟨0, rfl, Bool.eq_false_iff.mpr hc⟩

/-- A program without macro calls has no non-macro declaration whose
body calls a macro name. -/
theorem no_macro_calls_of_hasAny_false {p : Program}
    (h : hasAnyMacroCall p = false) :
    ∀ d ∈ p.decls, isMacroDecl d = false →
      ∀ n ∈ macroNames p, containsCall n d.body = false := by
  intro d hd hnm n hn
  cases hcc : containsCall n d.body
  · rfl
  · exfalso
    have : hasAnyMacroCall p = true :=
      hasAnyMacroCall_true_of p n hn ⟨d, hd, hnm, hcc⟩
    rw [this] at h
    cases h

/-- The list form of callTargetsList. -/
theorem callTargetsList_eq (l : List Expr) :
    callTargetsList l = (l.map callTargets).flatten := by
  induction l with
  | nil => rfl
  | cons x xs ih => simp [callTargetsList, ih]

/-- A call target occurs as a call. -/
theorem containsCall_of_mem_callTargets :
    ∀ (e : Expr) (c : CanonicalName), c ∈ callTargets e →
      containsCall c e = true := by
  intro e
  induction e using Expr.inductionOn with
  | hatom s => intro c hc; cases hc
  | hcall c0 args ih =>
    intro c hc
    rw [callTargets] at hc
    rw [containsCall, containsCallList_eq_any]
    rcases List.mem_cons.mp hc with rfl | h2
    · simp
    · rw [callTargetsList_eq] at h2
      rcases List.mem_flatten.mp h2 with ⟨li, hli, hcli⟩
      rcases List.mem_map.mp hli with ⟨a, ha, rfl⟩
      refine Bool.or_eq_true_iff.mpr (Or.inr ?_)
      exact List.any_eq_true.mpr ⟨a, ha, ih a ha c hcli⟩

/-- The name of a macro declaration of the program is a macro name. -/
theorem name_mem_macroNames {p : Program} {d : Decl}
    (hd : d ∈ p.decls) (hm : isMacroDecl d = true) :
    d.name ∈ macroNames p :=
  List.mem_map.mpr ⟨d, List.mem_filter.mpr ⟨hd, by simpa using hm⟩, rfl⟩

/-- In a program without macro calls and with a non-macro entry, the
reachability rounds never touch a macro name. -/
theorem reach_no_macro (p : Program)
    (hentry : p.entry ∉ macroNames p)
    (hclean : ∀ d ∈ p.decls, isMacroDecl d = false →
      ∀ n ∈ macroNames p, containsCall n d.body = false) :
    ∀ (k : Nat) (c : CanonicalName),
      c ∈ (stepReach p)^[k] [p.entry] → c ∉ macroNames p := by
  intro k
  induction k with
  | zero =>
    intro c hc
    have : c = p.entry := by simpa using hc
    rw [this]
    exact hentry
  | succ n ih =>
    intro c hc
    rw [Function.iterate_succ_apply'] at hc
    rw [stepReach, List.mem_dedup] at hc
    rcases List.mem_append.mp hc with hS | hT
    · exact ih c hS
    · rcases List.mem_flatten.mp hT with ⟨li, hli, hcli⟩
      rcases List.mem_map.mp hli with ⟨c2, hc2, rfl⟩
      have hc2nm := ih c2 hc2
      rw [targetsOf] at hcli
      cases hfind : declNamed p c2 with
      | none => rw [hfind] at hcli; cases hcli
      | some d =>
        rw [hfind] at hcli
        have hdp : d ∈ p.decls := List.mem_of_find?_eq_some hfind
        have hdname : d.name = c2 := by
          have := List.find?_some hfind
          exact of_decide_eq_true this
        have hdnm : isMacroDecl d = false := by
          cases hmd : isMacroDecl d
          · rfl
          · exact absurd (hdname ▸ name_mem_macroNames hdp hmd) hc2nm
        intro hcm
        have hcc := containsCall_of_mem_callTargets d.body c hcli
        rw [hclean d hdp hdnm c hcm] at hcc
        cases hcc

/-- A declaration kept by tree shaking is a reachable declaration of
the expanded program. -/
theorem mem_treeShake {p : Program} {d : Decl}
    (h : d ∈ (treeShake p).decls) :
    d ∈ p.decls ∧ d.name ∈ reachNames p := by
  rw [treeShake] at h
  have h2 := List.mem_filter.mp h
  exact ⟨h2.1, of_decide_eq_true h2.2⟩

/-- C1: when every createMacro call of the input is a whole macro
initializer and macro evaluation never emits createMacro, a successful
bundle contains no macro-marked declaration, no declaration named by a
macro name, no call of a macro name and no createMacro call: the macro
declarations are gone and every call-site has been replaced. -/
theorem macro_decls_absent_from_bundle
    (mf : CanonicalName → List Expr → Expr) (p q : Program)
    (hfns : ∀ c args, containsCall createMacroCN (mf c args) = false)
    (hwf : NonMacroCmFree p)
    (hentry : p.entry ∉ macroNames p)
    (hb : bundle mf p = .ok q) :
    ∀ d ∈ q.decls,
      isMacroDecl d = false ∧
        d.name ∉ macroNames p ∧
        containsCall createMacroCN d.body = false ∧
        ∀ n ∈ macroNames p, containsCall n d.body = false := by
  rw [bundle] at hb
  cases hE : expandLoop mf maxIterations p with
  | error e => rw [hE] at hb; cases hb
  | ok r =>
    rw [hE] at hb
    have hq : q = treeShake r := by
      cases hb
      rfl
    subst hq
    rcases expandLoop_ok mf maxIterations p r hE with ⟨k, hrk, hnomc⟩
    have hinv := iterate_invariants mf hfns k p
    rw [← hrk] at hinv
    have hnames : macroNames r = macroNames p := hinv.1
    have hent : r.entry = p.entry := hinv.2.1
    have hcmf : NonMacroCmFree r := hinv.2.2 hwf
    have hclean := no_macro_calls_of_hasAny_false hnomc
    have hreach := reach_no_macro r
      (by rw [hent, hnames]; exact hentry) hclean
    intro d hd
    rcases mem_treeShake hd with ⟨hdr, hdreach⟩
    rw [reachNames] at hdreach
    have hdnm : d.name ∉ macroNames r :=
      hreach r.decls.length d.name hdreach
    have hmark : isMacroDecl d = false := by
      cases hmd : isMacroDecl d
      · rfl
      · exact absurd (name_mem_macroNames hdr hmd) hdnm
    refine ⟨hmark, by rw [← hnames]; exact hdnm,
      hcmf d hdr hmark, ?_⟩
    intro n hn
    exact hclean d hdr hmark n (by rw [hnames]; exact hn)

/-- Witness for C1 at the simple macro fixture: the bundle keeps only
the expanded entry. -/
theorem macro_decls_absent_from_bundle_witness :
    isMacroDecl ⟨mainCN, .atom "(5) + 1"⟩ = false ∧
      (⟨mainCN, .atom "(5) + 1"⟩ : Decl).name ∉ macroNames pW1 ∧
      containsCall createMacroCN (⟨mainCN, .atom "(5) + 1"⟩ : Decl).body =
        false ∧
      ∀ n ∈ macroNames pW1,
        containsCall n (⟨mainCN, .atom "(5) + 1"⟩ : Decl).body = false :=
  macro_decls_absent_from_bundle mfW1 pW1 qW1
    (fun _ _ => rfl)
    (by
      intro d hd hnm
      rcases List.mem_cons.mp hd with rfl | hd2
      · cases hnm
      · rcases List.mem_cons.mp hd2 with rfl | hd3
        · rfl
        · cases hd3)
    (by decide)
    (by rfl)
    ⟨mainCN, .atom "(5) + 1"⟩
    (List.mem_cons_self _ _)

/-- CacheInv is reflexive. -/
theorem cacheInv_refl (server : String → HttpResp)
    (c : List (String × String)) : CacheInv server c c :=
  ⟨fun _ _ h => h, fun _ _ h => Or.inl h⟩

/-- CacheInv is transitive. -/
theorem cacheInv_trans {server : String → HttpResp}
    {c1 c2 c3 : List (String × String)}
    (h12 : CacheInv server c1 c2) (h23 : CacheInv server c2 c3) :
    CacheInv server c1 c3 := by
  refine ⟨fun u b h => h23.1 u b (h12.1 u b h), fun u b h => ?_⟩
  rcases h23.2 u b h with h2 | hs
  · exact h12.2 u b h2
  · exact Or.inr hs

/-- A fetch only grows the cache, and only with server bodies. -/
theorem fetchUrl_cacheInv (server : String → HttpResp) :
    ∀ (fuel : Nat) (st : FetchSt) (url : String),
      CacheInv server st.cache
        ((fetchUrl server false fuel st url).2.cache) := by
  intro fuel
  induction fuel with
  | zero =>
    intro st url
    cases h1 : cacheLookup st.cache url with
    | some b =>
      simp [fetchUrl, fetchStep, h1]
      exact cacheInv_refl server st.cache
    | none =>
      cases hs : server url with
      | ok b =>
        simp only [fetchUrl, fetchStep, h1, hs]
        simp only [Bool.false_eq_true, if_false]
        refine ⟨fun v bv hv => ?_, fun v bv hv => ?_⟩
        · rw [cacheLookup_insert]
          by_cases hvu : url = v
          · subst hvu; rw [h1] at hv; cases hv
          · rw [if_neg hvu]; exact hv
        · rw [cacheLookup_insert] at hv
          by_cases hvu : url = v
          · subst hvu
            rw [if_pos rfl] at hv
            injection hv with hbv
            rw [← hbv]
            exact Or.inr hs
          · rw [if_neg hvu] at hv; exact Or.inl hv
      | redirect loc =>
        simp [fetchUrl, fetchStep, h1, hs]
        exact cacheInv_refl server st.cache
      | err s =>
        simp [fetchUrl, fetchStep, h1, hs]
        exact cacheInv_refl server st.cache
  | succ k ih =>
    intro st url
    cases h1 : cacheLookup st.cache url with
    | some b =>
      simp [fetchUrl, fetchStep, h1]
      exact cacheInv_refl server st.cache
    | none =>
      cases hs : server url with
      | ok b =>
        simp only [fetchUrl, fetchStep, h1, hs]
        simp only [Bool.false_eq_true, if_false]
        refine ⟨fun v bv hv => ?_, fun v bv hv => ?_⟩
        · rw [cacheLookup_insert]
          by_cases hvu : url = v
          · subst hvu; rw [h1] at hv; cases hv
          · rw [if_neg hvu]; exact hv
        · rw [cacheLookup_insert] at hv
          by_cases hvu : url = v
          · subst hvu
            rw [if_pos rfl] at hv
            injection hv with hbv
            rw [← hbv]
            exact Or.inr hs
          · rw [if_neg hvu] at hv; exact Or.inl hv
      | redirect loc =>
        simp only [fetchUrl, fetchStep, h1, hs]
        exact ih { st with net := st.net ++ [url] } loc
      | err s =>
        simp [fetchUrl, fetchStep, h1, hs]
        exact cacheInv_refl server st.cache

/-- A bundler run only grows the cache, and only with server bodies. -/
theorem runFetchList_cacheInv (server : String → HttpResp) :
    ∀ (us : List String) (st : FetchSt),
      CacheInv server st.cache
        ((runFetchList server st us).2.cache) := by
  intro us
  induction us with
  | nil =>
    intro st
    exact cacheInv_refl server st.cache
  | cons u us ih =>
    intro st
    have h1 := fetchUrl_cacheInv server maxRedirects st u
    have h2 := ih (fetchHttp server false st u).2
    exact cacheInv_trans h1 h2

/-- Replay: a fetch against a cache that extends the original one with
server bodies returns the same result, and the two resulting caches
stay in the extension relation. -/
theorem fetchUrl_replay (server : String → HttpResp) :
    ∀ (fuel : Nat) (st1 st2 : FetchSt) (url : String),
      CacheInv server st1.cache st2.cache →
      (fetchUrl server false fuel st1 url).1 =
        (fetchUrl server false fuel st2 url).1 ∧
      CacheInv server (fetchUrl server false fuel st1 url).2.cache
        (fetchUrl server false fuel st2 url).2.cache := by
  intro fuel
  induction fuel with
  | zero =>
    intro st1 st2 url hinv
    obtain ⟨hext, hnew⟩ := hinv
    cases h1 : cacheLookup st1.cache url with
    | some b =>
      have h2 : cacheLookup st2.cache url = some b := hext url b h1
      simp only [fetchUrl, fetchStep, h1, h2, Bool.false_eq_true, if_false]
      exact ⟨trivial, hext, hnew⟩
    | none =>
      cases h2 : cacheLookup st2.cache url with
      | some b =>
        have hsb : server url = .ok b := by
          rcases hnew url b h2 with h | h
          · rw [h1] at h; cases h
          · exact h
        simp only [fetchUrl, fetchStep, h1, h2, hsb, Bool.false_eq_true,
          if_false]
        refine ⟨trivial, fun v bv hv => ?_, fun v bv hv => ?_⟩
        · rw [cacheLookup_insert] at hv
          by_cases hvu : url = v
          · subst hvu
            rw [if_pos rfl] at hv
            injection hv with hbv
            rw [← hbv]
            exact h2
          · rw [if_neg hvu] at hv; exact hext v bv hv
        · rw [cacheLookup_insert]
          by_cases hvu : url = v
          · subst hvu
            have hbv : bv = b := by
              rw [h2] at hv
              injection hv with h3
              exact h3.symm
            subst hbv
            exact Or.inl (by rw [if_pos rfl])
          · rw [if_neg hvu]
            rcases hnew v bv hv with h | h
            · exact Or.inl h
            · exact Or.inr h
      | none =>
        cases hs : server url with
        | ok b =>
          simp only [fetchUrl, fetchStep, h1, h2, hs, Bool.false_eq_true,
            if_false]
          refine ⟨trivial, fun v bv hv => ?_, fun v bv hv => ?_⟩
          · rw [cacheLookup_insert] at hv ⊢
            by_cases hvu : url = v
            · subst hvu; rw [if_pos rfl] at hv ⊢; exact hv
            · rw [if_neg hvu] at hv ⊢; exact hext v bv hv
          · rw [cacheLookup_insert] at hv ⊢
            by_cases hvu : url = v
            · subst hvu; rw [if_pos rfl] at hv ⊢; exact Or.inl hv
            · rw [if_neg hvu] at hv ⊢
              rcases hnew v bv hv with h | h
              · exact Or.inl h
              · exact Or.inr h
        | redirect loc =>
          simp only [fetchUrl, fetchStep, h1, h2, hs, Bool.false_eq_true,
            if_false]
          exact ⟨trivial, hext, hnew⟩
        | err s =>
          simp only [fetchUrl, fetchStep, h1, h2, hs, Bool.false_eq_true,
            if_false]
          exact ⟨trivial, hext, hnew⟩
  | succ k ih =>
    intro st1 st2 url hinv
    obtain ⟨hext, hnew⟩ := hinv
    cases h1 : cacheLookup st1.cache url with
    | some b =>
      have h2 : cacheLookup st2.cache url = some b := hext url b h1
      simp only [fetchUrl, fetchStep, h1, h2, Bool.false_eq_true, if_false]
      exact ⟨trivial, hext, hnew⟩
    | none =>
      cases h2 : cacheLookup st2.cache url with
      | some b =>
        have hsb : server url = .ok b := by
          rcases hnew url b h2 with h | h
          · rw [h1] at h; cases h
          · exact h
        simp only [fetchUrl, fetchStep, h1, h2, hsb, Bool.false_eq_true,
          if_false]
        refine ⟨trivial, fun v bv hv => ?_, fun v bv hv => ?_⟩
        · rw [cacheLookup_insert] at hv
          by_cases hvu : url = v
          · subst hvu
            rw [if_pos rfl] at hv
            injection hv with hbv
            rw [← hbv]
            exact h2
          · rw [if_neg hvu] at hv; exact hext v bv hv
        · rw [cacheLookup_insert]
          by_cases hvu : url = v
          · subst hvu
            have hbv : bv = b := by
              rw [h2] at hv
              injection hv with h3
              exact h3.symm
            subst hbv
            exact Or.inl (by rw [if_pos rfl])
          · rw [if_neg hvu]
            rcases hnew v bv hv with h | h
            · exact Or.inl h
            · exact Or.inr h
      | none =>
        cases hs : server url with
        | ok b =>
          simp only [fetchUrl, fetchStep, h1, h2, hs, Bool.false_eq_true,
            if_false]
          refine ⟨trivial, fun v bv hv => ?_, fun v bv hv => ?_⟩
          · rw [cacheLookup_insert] at hv ⊢
            by_cases hvu : url = v
            · subst hvu; rw [if_pos rfl] at hv ⊢; exact hv
            · rw [if_neg hvu] at hv ⊢; exact hext v bv hv
          · rw [cacheLookup_insert] at hv ⊢
            by_cases hvu : url = v
            · subst hvu; rw [if_pos rfl] at hv ⊢; exact Or.inl hv
            · rw [if_neg hvu] at hv ⊢
              rcases hnew v bv hv with h | h
              · exact Or.inl h
              · exact Or.inr h
        | redirect loc =>
          simp only [fetchUrl, fetchStep, h1, h2, hs, Bool.false_eq_true,
            if_false]
          exact ih { st1 with net := st1.net ++ [url] }
            { st2 with net := st2.net ++ [url] } loc ⟨hext, hnew⟩
        | err s =>
          simp only [fetchUrl, fetchStep, h1, h2, hs, Bool.false_eq_true,
            if_false]
          exact ⟨trivial, hext, hnew⟩

/-- Replay of a whole run: against an extended cache the run returns
the same fetch results. -/
theorem runFetchList_replay (server : String → HttpResp) :
    ∀ (us : List String) (st1 st2 : FetchSt),
      CacheInv server st1.cache st2.cache →
      (runFetchList server st1 us).1 = (runFetchList server st2 us).1 ∧
      CacheInv server (runFetchList server st1 us).2.cache
        (runFetchList server st2 us).2.cache := by
  intro us
  induction us with
  | nil => intro st1 st2 hinv; exact ⟨rfl, hinv⟩
  | cons u us ih =>
    intro st1 st2 hinv
    have hstep := fetchUrl_replay server maxRedirects st1 st2 u hinv
    have hrec := ih (fetchHttp server false st1 u).2
      (fetchHttp server false st2 u).2 hstep.2
    refine ⟨?_, hrec.2⟩
    show (fetchHttp server false st1 u).1 ::
        (runFetchList server (fetchHttp server false st1 u).2 us).1 =
      (fetchHttp server false st2 u).1 ::
        (runFetchList server (fetchHttp server false st2 u).2 us).1
    rw [show (fetchHttp server false st1 u).1 =
        (fetchHttp server false st2 u).1 from hstep.1, hrec.1]

/-- C5: running the bundler twice on an unchanged input with the cache
left intact between the runs yields identical fetch results, hence an
identical emitted bundle: the second run reads from the cache exactly
the bodies the first run stored or read. -/
theorem bundler_two_runs_byte_identical (server : String → HttpResp)
    (c0 : List (String × String)) (urls : List String) :
    (runBundler server ((runBundler server c0 urls).2.cache) urls).1 =
      (runBundler server c0 urls).1 := by
  have hgrow : CacheInv server c0 ((runBundler server c0 urls).2.cache) :=
    runFetchList_cacheInv server urls ⟨c0, [], []⟩
  exact (runFetchList_replay server urls ⟨c0, [], []⟩
    ⟨(runBundler server c0 urls).2.cache, [], []⟩ hgrow).1.symm

end Funee
